import Mathlib

/-!
A shallow embedding of `src/WordLadder.py` (class `Graph`, function `hamming`,
function `main`) together with theorems about the embedded code.

Python strings are modelled as `List Char`; Python's `dict` is modelled as an
association list with unique keys in insertion order (lookup finds the first
matching key, assignment overwrites in place, new keys are appended at the
end); Python's `heapq` is modelled as a multiset of entries from which `pop`
removes a minimal element under the lexicographic tuple order (tuples that
compare equal are identical, so this is faithful to the binary heap).
Exceptions are modelled with `Option`/error results, and the unbounded
`while` loop of `min_path` is modelled with explicit fuel (`none` = fuel ran
out; termination is proved separately).
-/

namespace WordLadder

/-- A Python string: a list of characters. -/
abbrev Word := List Char

/-- A path is the Python list of words accumulated by the search. -/
abbrev Path := List Word

/-- Keys of `word_patterns`: the Python tuple `(i, pattern-string)`. -/
abbrev PatKey := Nat × Word

/-- The `visited` dictionary: word -> cost, in insertion order. -/
abbrev Visited := List (Word × Nat)

/-- A frontier entry: the Python tuple `(distance, word, path)`. -/
abbrev Entry := Nat × Word × Path

/-- `Graph.patterns`: for each position `i` of `word`, the pair
`(i, word with position i replaced by the character ?)`. -/
def patterns (word : Word) : List PatKey :=
  (List.range word.length).map (fun i => (i, word.set i '?'))

/-- One `self.word_patterns[p].append(word)` step, with Python dict semantics:
if the key `p` is present, append `word` to its bucket in place; otherwise add
the key at the end with the one-element bucket `[word]`. -/
def bucketAppend : List (PatKey × List Word) → PatKey → Word → List (PatKey × List Word)
  | [], p, w => [(p, [w])]
  | e :: es, p, w =>
      if e.1 = p then (e.1, e.2 ++ [w]) :: es else e :: bucketAppend es p w

/-- Python dict lookup (`self.word_patterns.get(p)`): first entry whose key
matches, `none` when absent. -/
def dictGet : List (PatKey × List Word) → PatKey → Option (List Word)
  | [], _ => none
  | e :: es, p => if e.1 = p then some e.2 else dictGet es p

/-- The bucket of key `p`, reading an absent key as the empty bucket. -/
def dictGetList (wp : List (PatKey × List Word)) (p : PatKey) : List Word :=
  (dictGet wp p).getD []

/-- The state built by `Graph.__init__`: the `word_patterns` dict and `size`. -/
structure Graph where
  word_patterns : List (PatKey × List Word)
  size : Nat
deriving Repr, DecidableEq

/-- `Graph.__init__(words, size)`: for each word of length `size` (words of any
other length are skipped), append the word to the bucket of each of its
patterns.  `words` is a Python set; its iteration order is the list order of
the argument. -/
def graphInit (words : List Word) (size : Nat) : Graph :=
  { word_patterns :=
      words.foldl
        (fun wp word =>
          if word.length ≠ size then wp
          else (patterns word).foldl (fun wp p => bucketAppend wp p word) wp)
        []
    size := size }

/-- Membership test `cand not in visited` (negated): is `w` a key of the
`visited` dict? -/
def visitedMem (visited : Visited) (w : Word) : Bool :=
  visited.any (fun e => e.1 = w)

/-- Python dict assignment `visited[k] = c`: overwrite the first entry with key
`k`, or append a new entry at the end. -/
def dictSet : Visited → Word → Nat → Visited
  | [], k, c => [(k, c)]
  | e :: es, k, c => if e.1 = k then (k, c) :: es else e :: dictSet es k c

/-- The body of `Graph.unvisited` iterating over a list of pattern keys: for
each key, every bucket member that is not a key of `visited` is collected (an
absent bucket contributes nothing). -/
def unvisitedAux (g : Graph) (visited : Visited) : List PatKey → List Word
  | [] => []
  | p :: ps =>
      (match dictGet g.word_patterns p with
       | none => []
       | some cands => cands.filter (fun c => !visitedMem visited c)) ++
      unvisitedAux g visited ps

/-- `Graph.unvisited(word, visited)`. -/
def unvisited (g : Graph) (word : Word) (visited : Visited) : List Word :=
  unvisitedAux g visited (patterns word)

/-- The loop of `hamming` over the index list `range(len(start))`: `start[i]`
is always in range there, but `end[i]` may raise `IndexError`, modelled as
`none`. -/
def hammingAux (s e : Word) : Nat → List Nat → Option Nat
  | counter, [] => some counter
  | counter, i :: is =>
      match s[i]?, e[i]? with
      | some a, some b => hammingAux s e (if a ≠ b then counter + 1 else counter) is
      | _, _ => none

/-- `hamming(start, end)`: count the positions `i` in `range(len(start))` at
which `start[i] != end[i]`; evaluating `end[i]` out of range raises
(`none`). -/
def hamming (s e : Word) : Option Nat :=
  hammingAux s e 0 (List.range s.length)

/-- Python truthiness of a string: a string is truthy iff it is nonempty. -/
def pyStrTruthy (s : Word) : Bool := !s.isEmpty

/-- The test `i == 'a' or 'e' or 'i' or 'o' or 'u' or 'y'` from `min_path`:
Python `or` succeeds as soon as one operand is truthy, and each bare string
literal after the first `or` is truthy on its own. -/
def vowelTest (i : Char) : Bool :=
  (i = 'a') || pyStrTruthy ['e'] || pyStrTruthy ['i'] || pyStrTruthy ['o'] ||
    pyStrTruthy ['u'] || pyStrTruthy ['y']

/-- The inner loop `for i,j in zipped: if i != j: if <vowel test>: distance += 1`
over `zipped = zip(a, b)` (which truncates to the shorter string). -/
def costIncrement (a b : Word) : Nat :=
  ((a.zip b).filter (fun ij => ij.1 ≠ ij.2 && vowelTest ij.1)).length

/-- The number of positions at which `a` and `b` differ (over the common
length). -/
def diffCount (a b : Word) : Nat :=
  ((a.zip b).filter (fun ij => ij.1 ≠ ij.2)).length

/-- Python list indexing with a possibly negative index, as used for
`path[len(path)-1]` and `path[len(path)-2]`: an index `-k` counts from the
end.  (In `min_path` the index is at least `-1` and the list nonempty, so the
default is never read.) -/
def pyIdx (l : Path) (i : Int) : Word :=
  if 0 ≤ i then l.getD i.toNat [] else l.getD (l.length - (-i).toNat) []

/-- Lexicographic comparison of two Python strings (by code point). -/
def wordLt : Word → Word → Bool
  | _, [] => false
  | [], _ :: _ => true
  | a :: as, b :: bs => a.toNat < b.toNat || (a = b && wordLt as bs)

/-- Lexicographic comparison of two Python lists of strings. -/
def pathLt : Path → Path → Bool
  | _, [] => false
  | [], _ :: _ => true
  | a :: as, b :: bs => wordLt a b || (a = b && pathLt as bs)

/-- Python comparison of two frontier tuples `(cost, word, path)`. -/
def entryLt (x y : Entry) : Bool :=
  x.1 < y.1 || (x.1 = y.1 && (wordLt x.2.1 y.2.1 ||
    (x.2.1 = y.2.1 && pathLt x.2.2 y.2.2)))

/-- Select a minimal entry from `e :: es` and return it with the remaining
entries.  Distinct entries never compare equal under the Python tuple order,
so this is the value popped by `heapq.heappop`. -/
def popMinAux : Entry → List Entry → Entry × List Entry
  | e, [] => (e, [])
  | e, f :: fs =>
      if entryLt f e then
        let (m, r) := popMinAux f fs
        (m, e :: r)
      else
        let (m, r) := popMinAux e fs
        (m, f :: r)

/-- `heapq.heappop` on the frontier multiset: `none` on an empty frontier. -/
def popMin : List Entry → Option (Entry × List Entry)
  | [] => none
  | e :: es => some (popMinAux e es)

/-- Result of one `min_path` call: a returned value (`ok`) or an uncaught
exception escaping from `hamming` (`err`). -/
inductive PyResult where
  | ok : Option Path → PyResult
  | err : PyResult
deriving Repr, DecidableEq

/-- The increment added to `distance` for each candidate of one expansion
round: the inner-loop count over `zip(path[len(path)-1], path[len(path)-2])`. -/
def roundIncr (path : Path) : Nat :=
  costIncrement (pyIdx path ((path.length : Int) - 1))
    (pyIdx path ((path.length : Int) - 2))

/-- The body of `for adjacent in self.unvisited(word, visited)`: for each
candidate, add `costIncrement` of the last two words of `path` (Python index
`len(path)-2` wraps to the last element when the path is a singleton) to the
running `distance`, compute `cost = distance + hamming(adjacent, end)`, record
`visited[adjacent] = cost` and push `(cost, adjacent, path + [adjacent])`.
A `hamming` failure aborts the whole call (`none`). -/
def expandRound (endW : Word) (path : Path) :
    List Word → Nat → Visited → List Entry → Option (Nat × Visited × List Entry)
  | [], distance, visited, frontier => some (distance, visited, frontier)
  | adj :: adjs, distance, visited, frontier =>
      let distance := distance + roundIncr path
      match hamming adj endW with
      | none => none
      | some h =>
          expandRound endW path adjs distance (dictSet visited adj (distance + h))
            (frontier ++ [(distance + h, adj, path ++ [adj])])

/-- The number of differing positions between the last two words of a path
(the two words `min_path` actually compares in one expansion round once the
path has at least two words). -/
def lastTwoDiff (path : Path) : Nat :=
  diffCount (path.getD (path.length - 1) []) (path.getD (path.length - 2) [])

/-- Spec-side description of the frontier entries pushed during one expansion
round with per-candidate increment `d`: the `k`-th candidate (counting from 1)
is pushed with cost `dist + k*d + hamming(candidate, end)`. -/
def pushedEntries (endW : Word) (path : Path) (d : Nat) :
    List Word → Nat → List Entry
  | [], _ => []
  | a :: as, dist =>
      (dist + d + (hamming a endW).getD 0, a, path ++ [a]) ::
        pushedEntries endW path d as (dist + d)

/-- Spec-side description of the `visited` dict after one expansion round with
per-candidate increment `d`: the `k`-th candidate (counting from 1) is
recorded with cost `dist + k*d + hamming(candidate, end)`. -/
def visitedAfter (endW : Word) (d : Nat) : List Word → Nat → Visited → Visited
  | [], _, v => v
  | a :: as, dist, v =>
      visitedAfter endW d as (dist + d)
        (dictSet v a (dist + d + (hamming a endW).getD 0))

/-- The `while len(frontier) > 0` loop of `min_path`, with fuel.  `none` means
the fuel ran out before the loop finished. -/
def minPathAux (g : Graph) (endW : Word) :
    Nat → Visited → List Entry → Option PyResult
  | 0, _, _ => none
  | fuel + 1, visited, frontier =>
      match popMin frontier with
      | none => some (.ok none)
      | some ((distance, word, path), rest) =>
          if word = endW then some (.ok (some path))
          else
            match expandRound endW path (unvisited g word visited) distance visited rest with
            | none => some .err
            | some (_, visited2, frontier2) => minPathAux g endW fuel visited2 frontier2

/-- Sum of the lengths of all buckets of the index. -/
def totalBucketLen (g : Graph) : Nat :=
  (g.word_patterns.map (fun e => e.2.length)).sum

/-- All bucket members of the index, with multiplicity. -/
def indexWords (g : Graph) : List Word :=
  (g.word_patterns.map (fun e => e.2)).flatten

/-- Fuel that the termination proof shows suffices for any `min_path` call:
one more than the initial value of the decreasing measure
`frontier.length + (roomLeft in visited) * (maxRoundPushes + 1)`. -/
def defaultFuel (g : Graph) (s : Word) : Nat :=
  (max s.length g.size * totalBucketLen g + 1) * totalBucketLen g + 2

/-- `Graph.min_path(start, end)`: run the search loop with the proven-adequate
fuel from the initial state `visited = {}`, `frontier = [(0, start, [start])]`. -/
def min_path (g : Graph) (s endW : Word) : Option PyResult :=
  minPathAux g endW (defaultFuel g s) [] [(0, s, [s])]

/-- An uncaught Python exception escaping from `main`. -/
inductive PyExn where
  | lengthMismatch
  | indexError
deriving Repr, DecidableEq

/-- `str.lower()`. -/
def pyLower (w : Word) : Word := w.map Char.toLower

/-- `str.upper()`. -/
def pyUpper (w : Word) : Word := w.map Char.toUpper

/-- `main(start, end, words)` with an explicitly supplied dictionary (the
`words is None` branch reads a file and is outside this embedding): lowercase
both query words, raise on a length mismatch, add the end word to the
dictionary when absent, build the graph for the start word's length, run
`min_path` and render the result string.  The outer `Option` is the fuel of
the embedded search loop. -/
def main (start0 endW0 : Word) (words : List Word) : Option (Except PyExn Word) :=
  let start := pyLower start0
  let endW := pyLower endW0
  if start.length ≠ endW.length then some (.error .lengthMismatch)
  else
    let words2 := if words.contains endW then words else words ++ [endW]
    match min_path (graphInit words2 start.length) start endW with
    | none => none
    | some .err => some (.error .indexError)
    | some (.ok none) =>
        some (.ok ("No word ladder exists from ".toList ++ pyUpper start ++
          " to ".toList ++ pyUpper endW))
    | some (.ok (some ladder)) =>
        some (.ok ("Shortest Word Ladder: ".toList ++
          (ladder.map (fun w => pyUpper w ++ [' '])).flatten))

/-- The dictionary `{"cat","cot","cog","dog"}` of §8 of the spec. -/
def catDict : List Word := [['c','a','t'], ['c','o','t'], ['c','o','g'], ['d','o','g']]

/-- All 24 iteration orders of the set `{"cat","cot","cog","dog"}` (a Python
set iterates in an unspecified order, so the graph may be built from any of
these). -/
def catDictOrders : List (List Word) := [
    [['c', 'a', 't'], ['c', 'o', 't'], ['c', 'o', 'g'], ['d', 'o', 'g']],
    [['c', 'a', 't'], ['c', 'o', 't'], ['d', 'o', 'g'], ['c', 'o', 'g']],
    [['c', 'a', 't'], ['c', 'o', 'g'], ['c', 'o', 't'], ['d', 'o', 'g']],
    [['c', 'a', 't'], ['c', 'o', 'g'], ['d', 'o', 'g'], ['c', 'o', 't']],
    [['c', 'a', 't'], ['d', 'o', 'g'], ['c', 'o', 't'], ['c', 'o', 'g']],
    [['c', 'a', 't'], ['d', 'o', 'g'], ['c', 'o', 'g'], ['c', 'o', 't']],
    [['c', 'o', 't'], ['c', 'a', 't'], ['c', 'o', 'g'], ['d', 'o', 'g']],
    [['c', 'o', 't'], ['c', 'a', 't'], ['d', 'o', 'g'], ['c', 'o', 'g']],
    [['c', 'o', 't'], ['c', 'o', 'g'], ['c', 'a', 't'], ['d', 'o', 'g']],
    [['c', 'o', 't'], ['c', 'o', 'g'], ['d', 'o', 'g'], ['c', 'a', 't']],
    [['c', 'o', 't'], ['d', 'o', 'g'], ['c', 'a', 't'], ['c', 'o', 'g']],
    [['c', 'o', 't'], ['d', 'o', 'g'], ['c', 'o', 'g'], ['c', 'a', 't']],
    [['c', 'o', 'g'], ['c', 'a', 't'], ['c', 'o', 't'], ['d', 'o', 'g']],
    [['c', 'o', 'g'], ['c', 'a', 't'], ['d', 'o', 'g'], ['c', 'o', 't']],
    [['c', 'o', 'g'], ['c', 'o', 't'], ['c', 'a', 't'], ['d', 'o', 'g']],
    [['c', 'o', 'g'], ['c', 'o', 't'], ['d', 'o', 'g'], ['c', 'a', 't']],
    [['c', 'o', 'g'], ['d', 'o', 'g'], ['c', 'a', 't'], ['c', 'o', 't']],
    [['c', 'o', 'g'], ['d', 'o', 'g'], ['c', 'o', 't'], ['c', 'a', 't']],
    [['d', 'o', 'g'], ['c', 'a', 't'], ['c', 'o', 't'], ['c', 'o', 'g']],
    [['d', 'o', 'g'], ['c', 'a', 't'], ['c', 'o', 'g'], ['c', 'o', 't']],
    [['d', 'o', 'g'], ['c', 'o', 't'], ['c', 'a', 't'], ['c', 'o', 'g']],
    [['d', 'o', 'g'], ['c', 'o', 't'], ['c', 'o', 'g'], ['c', 'a', 't']],
    [['d', 'o', 'g'], ['c', 'o', 'g'], ['c', 'a', 't'], ['c', 'o', 't']],
    [['d', 'o', 'g'], ['c', 'o', 'g'], ['c', 'o', 't'], ['c', 'a', 't']]]

/-- Does `min_path` on the graph built from `ws` (length 3) return a path from
`"cat"` to `"dog"` all of whose elements are words of `ws`? -/
def catLadderCheck (ws : List Word) : Bool :=
  match min_path (graphInit ws 3) ['c','a','t'] ['d','o','g'] with
  | some (.ok (some p)) =>
      p.head? = some ['c','a','t'] && p.getLast? = some ['d','o','g'] &&
        p.all (fun w => ws.contains w)
  | _ => false

/-! ## Theorems -/

theorem vowelTest_true (c : Char) : vowelTest c = true := by
  simp [vowelTest, pyStrTruthy]

theorem costIncrement_eq_diffCount (a b : Word) : costIncrement a b = diffCount a b := by
  unfold costIncrement diffCount
  congr 1
  refine List.filter_congr (fun ij _ => ?_)
  simp [vowelTest, pyStrTruthy]

/-- C1: the test `i == 'a' or 'e' or 'i' or 'o' or 'u' or 'y'` is true for
every character `i`, so the increment computed by the inner loop of
`min_path` counts every differing position of the two compared words, not
just vowel positions. -/
theorem spec_C1 : (∀ c : Char, vowelTest c = true) ∧
    (∀ a b : Word, costIncrement a b = diffCount a b) :=
  ⟨vowelTest_true, costIncrement_eq_diffCount⟩

theorem hammingAux_shift (s e : Word) (is : List Nat) :
    ∀ c, hammingAux s e c is = (hammingAux s e 0 is).map (fun n => c + n) := by
  induction is with
  | nil => intro c; simp [hammingAux]
  | cons i is ih =>
      intro c
      rcases hs : s[i]? with _ | a <;> rcases he : e[i]? with _ | b <;>
        simp only [hammingAux, hs, he, Option.map_none']
      rw [ih]
      conv_rhs => rw [ih]
      rcases hammingAux s e 0 is with _ | n
      · simp
      · by_cases hab : a = b <;> simp [hab] <;> omega

theorem hammingAux_map_succ (a b : Char) (s e : Word) (is : List Nat) :
    ∀ c, hammingAux (a :: s) (b :: e) c (is.map (fun i => i + 1)) =
      hammingAux s e c is := by
  induction is with
  | nil => intro c; simp [hammingAux]
  | cons i is ih =>
      intro c
      rcases hs : s[i]? with _ | x <;> rcases he : e[i]? with _ | y <;>
        simp [hammingAux, hs, he, ih]

theorem hamming_cons (a b : Char) (s e : Word) :
    hamming (a :: s) (b :: e) =
      (hamming s e).map (fun n => (if a ≠ b then 1 else 0) + n) := by
  have hrange : List.range (a :: s).length =
      0 :: (List.range s.length).map (fun i => i + 1) := by
    simp [List.range_succ_eq_map, Nat.succ_eq_add_one]
  unfold hamming
  rw [hrange]
  simp only [hammingAux, List.getElem?_cons_zero]
  rw [hammingAux_map_succ, hammingAux_shift]

theorem diffCount_cons (a b : Char) (s e : Word) :
    diffCount (a :: s) (b :: e) = (if a ≠ b then 1 else 0) + diffCount s e := by
  unfold diffCount
  rw [List.zip_cons_cons, List.filter_cons]
  by_cases hab : a = b <;> simp [hab] <;> omega

theorem hamming_eq_ite (s e : Word) :
    hamming s e = if e.length < s.length then none else some (diffCount s e) := by
  induction s generalizing e with
  | nil => simp [hamming, hammingAux, diffCount]
  | cons a s ih =>
      cases e with
      | nil =>
          simp only [List.length_nil, List.length_cons, Nat.zero_lt_succ, if_true]
          unfold hamming
          rw [List.length_cons, List.range_succ_eq_map]
          rw [hammingAux]
          simp
      | cons b e =>
          rw [hamming_cons, ih]
          by_cases h : e.length < s.length <;>
            simp [h, diffCount_cons, Nat.succ_lt_succ_iff]

/-- C2 amended: `hamming(a, b)` raises only when `len(b) < len(a)` (an
`IndexError` on `b`, modelled `none`); when `len(a) <= len(b)` it silently
returns the count of differing positions among the first `len(a)` positions
— in particular for equal lengths, the count of positions at which the
corresponding characters differ. -/
theorem spec_C2 (s e : Word) :
    hamming s e = if e.length < s.length then none else some (diffCount s e) :=
  hamming_eq_ite s e

/-- C2 counterexample to the claim as stated: `hamming` applied to words of
different lengths can silently return an integer computed over a prefix
(here `hamming("a", "ab") = 0`) instead of failing. -/
theorem spec_C2_cex :
    (['a'] : Word).length ≠ (['a', 'b'] : Word).length ∧
      hamming ['a'] ['a', 'b'] = some 0 := by decide

/-- C4: when the frontier empties without `end` being popped the search
returns the absent value (`None`), not an error; in particular for the
dictionary `{"aaa","bbb"}` (both iteration orders) and length 3,
`min_path("aaa", "bbb")` returns `None`. -/
theorem spec_C4 :
    (∀ (g : Graph) (endW : Word) (n : Nat) (v : Visited),
      minPathAux g endW (n + 1) v [] = some (.ok none)) ∧
    min_path (graphInit [['a','a','a'], ['b','b','b']] 3)
        ['a','a','a'] ['b','b','b'] = some (.ok none) ∧
      min_path (graphInit [['b','b','b'], ['a','a','a']] 3)
        ['a','a','a'] ['b','b','b'] = some (.ok none) := by
  refine ⟨fun g endW n v => by simp [minPathAux, popMin], ?_, ?_⟩ <;> rfl

/-- C6: `min_path(w, w)` returns the single-element path `[w]` for every word
`w` and every graph, whether or not `w` occurs in the dictionary. -/
theorem spec_C6 (g : Graph) (w : Word) : min_path g w w = some (.ok (some [w])) := by
  rw [min_path,
    show defaultFuel g w =
      ((max w.length g.size * totalBucketLen g + 1) * totalBucketLen g + 1) + 1 from rfl]
  simp [minPathAux, popMin, popMinAux]

/-- C8: `main` on start and end words of differing lengths fails with the
explicit length-mismatch error, and the result does not depend on the
dictionary (no index is built, no search is run). -/
theorem spec_C8 (s e : Word) (ws : List Word) (h : s.length ≠ e.length) :
    main s e ws = some (.error .lengthMismatch) ∧ main s e ws = main s e [] := by
  have h' : (pyLower s).length ≠ (pyLower e).length := by simpa [pyLower] using h
  constructor <;> simp [main, h']

theorem spec_C8_witness :
    (['a', 'b'] : Word).length ≠ (['a', 'b', 'c'] : Word).length ∧
      main ['a', 'b'] ['a', 'b', 'c'] [['x', 'y']] = some (.error .lengthMismatch) :=
  ⟨by decide, (spec_C8 ['a', 'b'] ['a', 'b', 'c'] [['x', 'y']] (by decide)).1⟩

/-- C9: for every iteration order of the dictionary `{"cat","cot","cog","dog"}`
and length 3, `min_path("cat", "dog")` returns a path (not `None`) whose first
element is `"cat"`, whose last element is `"dog"`, and all of whose elements
are dictionary words. -/
theorem spec_C9 : ∀ ws ∈ catDictOrders, catLadderCheck ws = true := by decide

theorem spec_C9_witness :
    catLadderCheck [['c','a','t'], ['c','o','t'], ['c','o','g'], ['d','o','g']] = true :=
  spec_C9 [['c','a','t'], ['c','o','t'], ['c','o','g'], ['d','o','g']] (by decide)

theorem expandRound_eq (endW : Word) (path : Path) :
    ∀ (adjs : List Word) (D : Nat) (v : Visited) (f : List Entry),
      (∀ a ∈ adjs, (hamming a endW).isSome = true) →
      expandRound endW path adjs D v f =
        some (D + adjs.length * roundIncr path,
          visitedAfter endW (roundIncr path) adjs D v,
          f ++ pushedEntries endW path (roundIncr path) adjs D) := by
  intro adjs
  induction adjs with
  | nil => intro D v f _; simp [expandRound, pushedEntries, visitedAfter]
  | cons a as ih =>
      intro D v f hh
      obtain ⟨h, hham⟩ := Option.isSome_iff_exists.mp (hh a (List.mem_cons_self a as))
      simp only [expandRound, hham]
      rw [ih (D + roundIncr path) (dictSet v a (D + roundIncr path + h))
        (f ++ [(D + roundIncr path + h, a, path ++ [a])])
        (fun x hx => hh x (List.mem_cons_of_mem a hx))]
      rw [pushedEntries, visitedAfter, hham]
      have hm : (as.length + 1) * roundIncr path =
          roundIncr path + as.length * roundIncr path := by
        rw [Nat.succ_mul]; omega
      simp [List.length_cons, hm, Nat.add_assoc]

theorem pushedEntries_getElem (endW : Word) (path : Path) (d : Nat) :
    ∀ (adjs : List Word) (D k : Nat) (hk : k < adjs.length),
      (pushedEntries endW path d adjs D)[k]? =
        some (D + (k + 1) * d + (hamming (adjs.get ⟨k, hk⟩) endW).getD 0,
          adjs.get ⟨k, hk⟩, path ++ [adjs.get ⟨k, hk⟩]) := by
  intro adjs
  induction adjs with
  | nil => intro D k hk; exact absurd hk (by simp)
  | cons a as ih =>
      intro D k hk
      cases k with
      | zero => simp [pushedEntries]
      | succ k =>
          have hk' : k < as.length := Nat.lt_of_succ_lt_succ hk
          rw [pushedEntries]
          simp only [List.getElem?_cons_succ, List.get_cons_succ]
          rw [ih (D + d) k hk']
          have hm : (k + 1 + 1) * d = d + (k + 1) * d := by rw [Nat.succ_mul]; omega
          simp [hm, Nat.add_assoc]

theorem visitedAfter_take_succ (endW : Word) (d : Nat) :
    ∀ (adjs : List Word) (D : Nat) (v : Visited) (k : Nat) (hk : k < adjs.length),
      visitedAfter endW d (adjs.take (k + 1)) D v =
        dictSet (visitedAfter endW d (adjs.take k) D v) (adjs.get ⟨k, hk⟩)
          (D + (k + 1) * d + (hamming (adjs.get ⟨k, hk⟩) endW).getD 0) := by
  intro adjs
  induction adjs with
  | nil => intro D v k hk; exact absurd hk (by simp)
  | cons a as ih =>
      intro D v k hk
      cases k with
      | zero => simp [visitedAfter, Nat.add_assoc]
      | succ k =>
          have hk' : k < as.length := Nat.lt_of_succ_lt_succ hk
          simp only [List.take_succ_cons, List.get_cons_succ]
          rw [visitedAfter, visitedAfter]
          rw [ih (D + d) (dictSet v a (D + d + (hamming a endW).getD 0)) k hk']
          have hm : (k + 1 + 1) * d = d + (k + 1) * d := by rw [Nat.succ_mul]; omega
          simp [hm, Nat.add_assoc]

theorem roundIncr_eq_lastTwoDiff (path : Path) (h2 : 2 ≤ path.length) :
    roundIncr path = lastTwoDiff path := by
  have e1 : ((path.length : Int) - 1).toNat = path.length - 1 := by omega
  have e2 : ((path.length : Int) - 2).toNat = path.length - 2 := by omega
  have g1 : (0 : Int) ≤ (path.length : Int) - 1 := by omega
  have g2 : (0 : Int) ≤ (path.length : Int) - 2 := by omega
  rw [roundIncr, lastTwoDiff, costIncrement_eq_diffCount, pyIdx, pyIdx,
    if_pos g1, if_pos g2, e1, e2]

/-- C3: in one expansion round popped with distance `D` and path `P` (with at
least two words), the increment `d` (the number of differing positions between
the last two words of `P`) is applied to the outer `distance` accumulator and
never reset, so the `k`-th candidate (counting from 1) is pushed with cost
`D + k*d + hamming(candidate, end)` and recorded in `visited` at that cost by
the `k`-th assignment of the round. -/
theorem spec_C3 (endW : Word) (path : Path) (adjs : List Word) (D : Nat)
    (v : Visited) (f : List Entry) (hpath : 2 ≤ path.length)
    (hlen : ∀ a ∈ adjs, a.length ≤ endW.length) :
    expandRound endW path adjs D v f =
      some (D + adjs.length * lastTwoDiff path,
        visitedAfter endW (lastTwoDiff path) adjs D v,
        f ++ pushedEntries endW path (lastTwoDiff path) adjs D) ∧
    ∀ k, (hk : k < adjs.length) →
      (pushedEntries endW path (lastTwoDiff path) adjs D)[k]? =
        some (D + (k + 1) * lastTwoDiff path + diffCount (adjs.get ⟨k, hk⟩) endW,
          adjs.get ⟨k, hk⟩, path ++ [adjs.get ⟨k, hk⟩]) ∧
      visitedAfter endW (lastTwoDiff path) (adjs.take (k + 1)) D v =
        dictSet (visitedAfter endW (lastTwoDiff path) (adjs.take k) D v)
          (adjs.get ⟨k, hk⟩)
          (D + (k + 1) * lastTwoDiff path + diffCount (adjs.get ⟨k, hk⟩) endW) := by
  have hham : ∀ a ∈ adjs, hamming a endW = some (diffCount a endW) := by
    intro a ha
    rw [hamming_eq_ite, if_neg (Nat.not_lt.mpr (hlen a ha))]
  have hd := roundIncr_eq_lastTwoDiff path hpath
  refine ⟨?_, fun k hk => ?_⟩
  · rw [← hd]
    exact expandRound_eq endW path adjs D v f
      (fun a ha => by rw [hham a ha]; rfl)
  · have hmem : adjs.get ⟨k, hk⟩ ∈ adjs := List.get_mem adjs k hk
    constructor
    · rw [pushedEntries_getElem endW path (lastTwoDiff path) adjs D k hk,
        hham _ hmem]
      rfl
    · rw [visitedAfter_take_succ endW (lastTwoDiff path) adjs D v k hk,
        hham _ hmem]
      rfl

theorem count_eq_one_of_nodup_mem {α : Type} [BEq α] [LawfulBEq α] {w : α}
    {l : List α} (hnd : l.Nodup) (hw : w ∈ l) : l.count w = 1 := by
  induction l with
  | nil => cases hw
  | cons a l ih =>
      rw [List.count_cons]
      rcases List.mem_cons.mp hw with rfl | hmem
      · have hnm : w ∉ l := (List.nodup_cons.mp hnd).1
        simp [List.count_eq_zero.mpr hnm]
      · have hne : ¬ (a == w) = true := by
          intro hbeq
          exact (List.nodup_cons.mp hnd).1 ((eq_of_beq hbeq) ▸ hmem)
        rw [ih (List.nodup_cons.mp hnd).2 hmem]
        simp [hne]

theorem dictGetList_cons (e : PatKey × List Word) (es : List (PatKey × List Word))
    (q : PatKey) :
    dictGetList (e :: es) q = if e.1 = q then e.2 else dictGetList es q := by
  by_cases h : e.1 = q <;> simp [dictGetList, dictGet, h]

theorem dictGetList_bucketAppend (wp : List (PatKey × List Word)) (p q : PatKey)
    (w : Word) :
    dictGetList (bucketAppend wp p w) q =
      if q = p then dictGetList wp q ++ [w] else dictGetList wp q := by
  induction wp with
  | nil =>
      by_cases h : q = p
      · subst h; simp [bucketAppend, dictGetList, dictGet]
      · have h' : ¬ p = q := fun hh => h hh.symm
        simp [bucketAppend, dictGetList, dictGet, h, h']
  | cons e es ih =>
      by_cases h1 : e.1 = p
      · by_cases h2 : e.1 = q
        · have hqp : q = p := h2.symm.trans h1
          simp [bucketAppend, dictGetList_cons, h1, h2, hqp]
        · have hqp : ¬ q = p := fun hh => h2 (h1.trans hh.symm)
          have hpq : ¬ p = q := fun hh => hqp hh.symm
          simp [bucketAppend, dictGetList_cons, h1, h2, hqp, hpq]
      · by_cases h2 : e.1 = q
        · have hqp : ¬ q = p := fun hh => h1 (h2.trans hh)
          simp [bucketAppend, dictGetList_cons, h1, h2, hqp]
        · simp [bucketAppend, dictGetList_cons, h1, h2, ih]

theorem dictGetList_foldl_bucketAppend (w : Word) (ps : List PatKey) :
    ∀ (wp : List (PatKey × List Word)) (q : PatKey),
      dictGetList (ps.foldl (fun a p => bucketAppend a p w) wp) q =
        dictGetList wp q ++ List.replicate (ps.count q) w := by
  induction ps with
  | nil => intro wp q; simp
  | cons p ps ih =>
      intro wp q
      rw [List.foldl_cons, ih, dictGetList_bucketAppend, List.count_cons]
      by_cases h : q = p
      · subst h
        simp [List.replicate_succ, List.append_assoc]
      · have h' : ¬ p = q := fun hh => h hh.symm
        simp [h, h', beq_iff_eq]

theorem patterns_nodup (w : Word) : (patterns w).Nodup := by
  unfold patterns
  refine List.Nodup.map ?_ (List.nodup_range _)
  intro i j hij
  exact congrArg Prod.fst hij

theorem mem_patterns (w : Word) (i : Nat) (pat : Word) :
    (i, pat) ∈ patterns w ↔ i < w.length ∧ pat = w.set i '?' := by
  unfold patterns
  simp only [List.mem_map, List.mem_range, Prod.mk.injEq]
  constructor
  · rintro ⟨j, hj, hji, hset⟩
    subst hji
    exact ⟨hj, hset.symm⟩
  · rintro ⟨hi, hset⟩
    exact ⟨i, hi, rfl, hset.symm⟩

theorem count_patterns (w : Word) (q : PatKey) :
    (patterns w).count q = if q ∈ patterns w then 1 else 0 := by
  by_cases h : q ∈ patterns w
  · simp [h, count_eq_one_of_nodup_mem (patterns_nodup w) h]
  · simp [h, List.count_eq_zero.mpr h]

theorem dictGetList_graphInit_fold (size : Nat) (q : PatKey) :
    ∀ (ws : List Word) (wp : List (PatKey × List Word)),
      dictGetList
        (ws.foldl
          (fun wp word =>
            if word.length ≠ size then wp
            else (patterns word).foldl (fun wp p => bucketAppend wp p word) wp)
          wp) q =
      dictGetList wp q ++
        ws.filter (fun w => decide (w.length = size) && decide (q ∈ patterns w)) := by
  intro ws
  induction ws with
  | nil => intro wp; simp
  | cons w ws ih =>
      intro wp
      rw [List.foldl_cons]
      by_cases hl : w.length = size
      · rw [if_neg (by simp [hl]), ih, dictGetList_foldl_bucketAppend, count_patterns]
        by_cases hm : q ∈ patterns w
        · simp [hm, hl, List.replicate_succ, List.append_assoc]
        · simp [hm, hl]
      · rw [if_pos hl, ih]
        simp [hl]

theorem dictGetList_graphInit (ws : List Word) (size : Nat) (q : PatKey) :
    dictGetList (graphInit ws size).word_patterns q =
      ws.filter (fun w => decide (w.length = size) && decide (q ∈ patterns w)) := by
  have h := dictGetList_graphInit_fold size q ws []
  simpa [graphInit, dictGetList, dictGet] using h

/-- C5: every bucket member of the index built by `Graph.__init__` has length
`size` (words of any other length are silently excluded); a retained word `w`
of length `size` lies in the bucket of key `key` exactly when `key` is one of
the `size` keys `(i, w with position i masked)`, one per letter position; and
that key list has exactly `size` entries. -/
theorem spec_C5 (words : List Word) (size : Nat) (w x : Word) (key : PatKey) :
    (x ∈ dictGetList (graphInit words size).word_patterns key → x.length = size) ∧
    (w ∈ words → w.length = size →
      ((w ∈ dictGetList (graphInit words size).word_patterns key) ↔
        key ∈ (List.range size).map (fun i => (i, w.set i '?')))) ∧
    ((List.range size).map (fun i => (i, w.set i '?'))).length = size := by
  refine ⟨fun hx => ?_, fun hw hlen => ?_, by simp⟩
  · rw [dictGetList_graphInit, List.mem_filter] at hx
    have hp := hx.2
    simp only [Bool.and_eq_true, decide_eq_true_eq] at hp
    exact hp.1
  · rw [dictGetList_graphInit, List.mem_filter]
    have hpat : patterns w = (List.range size).map (fun i => (i, w.set i '?')) := by
      rw [patterns, hlen]
    constructor
    · rintro ⟨-, hp⟩
      simp only [Bool.and_eq_true, decide_eq_true_eq] at hp
      rw [← hpat]
      exact hp.2
    · intro hk
      refine ⟨hw, ?_⟩
      simp only [Bool.and_eq_true, decide_eq_true_eq]
      exact ⟨hlen, by rw [hpat]; exact hk⟩

theorem spec_C5_witness :
    ((['c','a','t'] : Word).length = 3) ∧
      (['c','a','t'] : Word) ∈ dictGetList
        (graphInit [['c','a','t'], ['c','a','t','s'], ['d','o','g']] 3).word_patterns
        (0, ['?','a','t']) := by
  refine ⟨(spec_C5 [['c','a','t'], ['c','a','t','s'], ['d','o','g']] 3 ['c','a','t']
    ['c','a','t'] (0, ['?','a','t'])).1 (by decide), ?_⟩
  exact ((spec_C5 [['c','a','t'], ['c','a','t','s'], ['d','o','g']] 3 ['c','a','t']
    ['c','a','t'] (0, ['?','a','t'])).2.1 (by decide) (by decide)).mpr (by decide)

theorem match_dictGet_filter (wp : List (PatKey × List Word)) (p : PatKey)
    (f : Word → Bool) :
    (match dictGet wp p with
     | none => []
     | some cands => cands.filter f) = (dictGetList wp p).filter f := by
  cases h : dictGet wp p <;> simp [dictGetList, h]

theorem unvisitedAux_count (g : Graph) (v : Visited) (w : Word) :
    ∀ ps : List PatKey,
      (unvisitedAux g v ps).count w =
        (ps.map (fun p => ((dictGetList g.word_patterns p).filter
          (fun c => !visitedMem v c)).count w)).sum := by
  intro ps
  induction ps with
  | nil => simp [unvisitedAux]
  | cons p ps ih =>
      rw [unvisitedAux, List.count_append, match_dictGet_filter, ih]
      simp

theorem sum_map_one (l : List PatKey) : (l.map (fun _ => (1 : Nat))).sum = l.length := by
  induction l with
  | nil => simp
  | cons a l ih => simp [ih, Nat.add_comm]

/-- C10: a word `w` of the index's length that was inserted into the index and
is not yet visited occurs in `unvisited(w, visited)` once for each of its
`len(w)` pattern buckets: the resolver reports a word as its own neighbor. -/
theorem spec_C10 (words : List Word) (size : Nat) (w : Word) (visited : Visited)
    (hw : w ∈ words) (hlen : w.length = size) (hnd : words.Nodup)
    (hv : visitedMem visited w = false) :
    (unvisited (graphInit words size) w visited).count w = size := by
  rw [unvisited, unvisitedAux_count]
  have hterm : ∀ p ∈ patterns w,
      ((dictGetList (graphInit words size).word_patterns p).filter
        (fun c => !visitedMem visited c)).count w = 1 := by
    intro p hp
    rw [dictGetList_graphInit,
      List.count_filter (by simp [hv]),
      List.count_filter (by simp [hlen, hp])]
    exact count_eq_one_of_nodup_mem hnd hw
  rw [List.map_congr_left hterm, sum_map_one]
  simp [patterns, hlen]

theorem spec_C10_witness :
    ((['a','a','a'] : Word) ∈ [['a','a','a'], ['b','b','b']] ∧
      (['a','a','a'] : Word).length = 3 ∧
      ([['a','a','a'], ['b','b','b']] : List Word).Nodup ∧
      visitedMem [] ['a','a','a'] = false) ∧
    (unvisited (graphInit [['a','a','a'], ['b','b','b']] 3) ['a','a','a'] []).count
      ['a','a','a'] = 3 :=
  ⟨⟨by decide, by decide, by decide, by decide⟩,
    spec_C10 [['a','a','a'], ['b','b','b']] 3 ['a','a','a'] []
      (by decide) (by decide) (by decide) (by decide)⟩

theorem spec_C3_witness :
    expandRound ['d','o','g'] [['c','a','t'], ['c','o','t']]
        [['c','o','g'], ['d','o','g']] 2 [] [] =
      some (4, [(['c','o','g'], 4), (['d','o','g'], 4)],
        [(4, ['c','o','g'], [['c','a','t'], ['c','o','t'], ['c','o','g']]),
         (4, ['d','o','g'], [['c','a','t'], ['c','o','t'], ['d','o','g']])]) := by
  have h := spec_C3 ['d','o','g'] [['c','a','t'], ['c','o','t']]
    [['c','o','g'], ['d','o','g']] 2 [] [] (by decide) (by decide)
  exact h.1.trans (by rfl)

theorem popMinAux_perm (es : List Entry) : ∀ e : Entry,
    List.Perm ((popMinAux e es).1 :: (popMinAux e es).2) (e :: es) := by
  induction es with
  | nil => intro e; simp [popMinAux]
  | cons f fs ih =>
      intro e
      by_cases h : entryLt f e
      · have hstep : popMinAux e (f :: fs) =
            ((popMinAux f fs).1, e :: (popMinAux f fs).2) := by
          rw [popMinAux, if_pos h]
        rw [hstep]
        exact (List.Perm.swap e (popMinAux f fs).1 (popMinAux f fs).2).trans
          ((ih f).cons e)
      · have hstep : popMinAux e (f :: fs) =
            ((popMinAux e fs).1, f :: (popMinAux e fs).2) := by
          rw [popMinAux, if_neg h]
        rw [hstep]
        exact ((List.Perm.swap f (popMinAux e fs).1 (popMinAux e fs).2).trans
          ((ih e).cons f)).trans (List.Perm.swap e f fs)

theorem popMin_perm (f : List Entry) (x : Entry × List Entry) (h : popMin f = some x) :
    List.Perm (x.1 :: x.2) f := by
  cases f with
  | nil => cases h
  | cons e es =>
      rw [popMin] at h
      injection h with h
      subst h
      exact popMinAux_perm es e

theorem visitedMem_iff_mem_keys (v : Visited) (k : Word) :
    visitedMem v k = true ↔ k ∈ v.map Prod.fst := by
  induction v with
  | nil => simp [visitedMem]
  | cons e es ih =>
      simp only [visitedMem, List.any_cons, Bool.or_eq_true, decide_eq_true_eq,
        List.map_cons, List.mem_cons]
      rw [← visitedMem]
      constructor
      · rintro (h | h)
        · exact Or.inl h.symm
        · exact Or.inr (ih.mp h)
      · rintro (h | h)
        · exact Or.inl h.symm
        · exact Or.inr (ih.mpr h)

theorem visitedMem_cons (e : Word × Nat) (es : Visited) (k : Word) :
    visitedMem (e :: es) k = (decide (e.1 = k) || visitedMem es k) := by
  simp [visitedMem]

theorem dictSet_keys (v : Visited) (k : Word) (c : Nat) :
    (dictSet v k c).map Prod.fst =
      if visitedMem v k then v.map Prod.fst else v.map Prod.fst ++ [k] := by
  induction v with
  | nil => simp [dictSet, visitedMem]
  | cons e es ih =>
      by_cases h : e.1 = k
      · rw [dictSet, if_pos h, visitedMem_cons]
        simp [h]
      · rw [dictSet, if_neg h, visitedMem_cons]
        by_cases h2 : visitedMem es k <;>
          simp [h, h2, List.map_cons, ih, List.cons_append]

theorem dictSet_keys_nodup (v : Visited) (k : Word) (c : Nat)
    (h : (v.map Prod.fst).Nodup) : ((dictSet v k c).map Prod.fst).Nodup := by
  rw [dictSet_keys]
  by_cases hv : visitedMem v k
  · simp [hv, h]
  · have hnm : k ∉ v.map Prod.fst := by
      intro hk
      exact hv ((visitedMem_iff_mem_keys v k).mpr hk)
    simp [hv, List.nodup_append, h, hnm]

theorem dictSet_length (v : Visited) (k : Word) (c : Nat) :
    (dictSet v k c).length = if visitedMem v k then v.length else v.length + 1 := by
  have h := congrArg List.length (dictSet_keys v k c)
  simp only [List.length_map, apply_ite List.length, List.length_append,
    List.length_singleton] at h
  exact h

theorem keys_dictSet_sub (v : Visited) (k : Word) (c : Nat) :
    ∀ x ∈ (dictSet v k c).map Prod.fst, x ∈ v.map Prod.fst ∨ x = k := by
  intro x hx
  rw [dictSet_keys] at hx
  by_cases hv : visitedMem v k
  · rw [if_pos hv] at hx; exact Or.inl hx
  · rw [if_neg hv, List.mem_append] at hx
    rcases hx with hx | hx
    · exact Or.inl hx
    · exact Or.inr (List.mem_singleton.mp hx)

theorem indexWords_length (g : Graph) : (indexWords g).length = totalBucketLen g := by
  simp only [indexWords, totalBucketLen, List.length_flatten, List.map_map,
    Function.comp_def]

theorem visited_length_le (g : Graph) (v : Visited)
    (hnd : (v.map Prod.fst).Nodup) (hsub : ∀ x ∈ v.map Prod.fst, x ∈ indexWords g) :
    v.length ≤ totalBucketLen g := by
  have hsp : List.Subperm (v.map Prod.fst) (indexWords g) :=
    hnd.subperm (fun _ hx => hsub _ hx)
  have hlen := hsp.length_le
  rw [List.length_map, indexWords_length] at hlen
  exact hlen

theorem dictGet_sub (wp : List (PatKey × List Word)) (p : PatKey) :
    ∀ l : List Word, dictGet wp p = some l →
      ∀ x ∈ l, x ∈ (wp.map (fun e => e.2)).flatten := by
  induction wp with
  | nil => intro l h; cases h
  | cons e es ih =>
      intro l h x hx
      rw [dictGet] at h
      by_cases hp : e.1 = p
      · rw [if_pos hp] at h
        injection h with h
        subst h
        simp only [List.map_cons, List.flatten_cons, List.mem_append]
        exact Or.inl hx
      · rw [if_neg hp] at h
        simp only [List.map_cons, List.flatten_cons, List.mem_append]
        exact Or.inr (ih l h x hx)

theorem dictGet_length_le (wp : List (PatKey × List Word)) (p : PatKey) :
    ∀ l : List Word, dictGet wp p = some l →
      l.length ≤ (wp.map (fun e => e.2.length)).sum := by
  induction wp with
  | nil => intro l h; cases h
  | cons e es ih =>
      intro l h
      rw [dictGet] at h
      rw [List.map_cons, List.sum_cons]
      by_cases hp : e.1 = p
      · rw [if_pos hp] at h
        injection h with h
        subst h
        exact Nat.le_add_right _ _
      · rw [if_neg hp] at h
        exact Nat.le_trans (ih l h) (Nat.le_add_left _ _)

theorem unvisitedAux_facts (g : Graph) (v : Visited) :
    ∀ ps : List PatKey, ∀ a ∈ unvisitedAux g v ps,
      a ∈ indexWords g ∧ visitedMem v a = false := by
  intro ps
  induction ps with
  | nil => intro a ha; cases ha
  | cons p ps ih =>
      intro a ha
      rw [unvisitedAux, List.mem_append] at ha
      rcases ha with ha | ha
      · cases hd : dictGet g.word_patterns p with
        | none => rw [hd] at ha; cases ha
        | some cands =>
            rw [hd] at ha
            have hmem := List.mem_of_mem_filter ha
            have hkeep := List.of_mem_filter ha
            refine ⟨dictGet_sub _ _ _ hd a hmem, ?_⟩
            simpa using hkeep
      · exact ih a ha

theorem unvisitedAux_length (g : Graph) (v : Visited) :
    ∀ ps : List PatKey,
      (unvisitedAux g v ps).length ≤ ps.length * totalBucketLen g := by
  intro ps
  induction ps with
  | nil => simp [unvisitedAux]
  | cons p ps ih =>
      rw [unvisitedAux, List.length_append]
      have hhead : (match dictGet g.word_patterns p with
          | none => []
          | some cands => cands.filter (fun c => !visitedMem v c)).length ≤
            totalBucketLen g := by
        cases hd : dictGet g.word_patterns p with
        | none => simp
        | some cands =>
            exact Nat.le_trans (List.length_filter_le _ _) (dictGet_length_le _ _ _ hd)
      have hmul : (ps.length + 1) * totalBucketLen g =
          ps.length * totalBucketLen g + totalBucketLen g := by
        rw [Nat.succ_mul]
      rw [List.length_cons, hmul]
      omega

theorem unvisited_length (g : Graph) (word : Word) (v : Visited) :
    (unvisited g word v).length ≤ word.length * totalBucketLen g := by
  have h := unvisitedAux_length g v (patterns word)
  have hp : (patterns word).length = word.length := by simp [patterns]
  rw [unvisited]
  rw [hp] at h
  exact h

theorem mem_flatten_bucketAppend (p : PatKey) (w : Word) :
    ∀ (wp : List (PatKey × List Word)) (x : Word),
      x ∈ ((bucketAppend wp p w).map (fun e => e.2)).flatten →
        x ∈ (wp.map (fun e => e.2)).flatten ∨ x = w := by
  intro wp
  induction wp with
  | nil =>
      intro x hx
      simp [bucketAppend] at hx
      exact Or.inr hx
  | cons e es ih =>
      intro x hx
      by_cases hp : e.1 = p
      · rw [bucketAppend, if_pos hp] at hx
        simp only [List.map_cons, List.flatten_cons, List.mem_append] at hx ⊢
        rcases hx with (hx | hx) | hx
        · exact Or.inl (Or.inl hx)
        · exact Or.inr (List.mem_singleton.mp hx)
        · exact Or.inl (Or.inr hx)
      · rw [bucketAppend, if_neg hp] at hx
        simp only [List.map_cons, List.flatten_cons, List.mem_append] at hx ⊢
        rcases hx with hx | hx
        · exact Or.inl (Or.inl hx)
        · rcases ih x hx with hx | hx
          · exact Or.inl (Or.inr hx)
          · exact Or.inr hx

theorem mem_flatten_foldl_bucketAppend (w : Word) :
    ∀ (ps : List PatKey) (wp : List (PatKey × List Word)) (x : Word),
      x ∈ ((ps.foldl (fun a p => bucketAppend a p w) wp).map (fun e => e.2)).flatten →
        x ∈ (wp.map (fun e => e.2)).flatten ∨ x = w := by
  intro ps
  induction ps with
  | nil => intro wp x hx; exact Or.inl hx
  | cons p ps ih =>
      intro wp x hx
      rw [List.foldl_cons] at hx
      rcases ih _ x hx with hx | hx
      · exact mem_flatten_bucketAppend p w wp x hx
      · exact Or.inr hx

theorem mem_indexWords_graphInit (size : Nat) (x : Word) :
    ∀ (words : List Word) (wp : List (PatKey × List Word)),
      x ∈ ((words.foldl
          (fun wp word =>
            if word.length ≠ size then wp
            else (patterns word).foldl (fun wp p => bucketAppend wp p word) wp)
          wp).map (fun e => e.2)).flatten →
        x ∈ (wp.map (fun e => e.2)).flatten ∨ (x ∈ words ∧ x.length = size) := by
  intro words
  induction words with
  | nil => intro wp hx; exact Or.inl hx
  | cons w ws ih =>
      intro wp hx
      rw [List.foldl_cons] at hx
      by_cases hl : w.length = size
      · rw [if_neg (by simp [hl])] at hx
        rcases ih _ hx with hx | hx
        · rcases mem_flatten_foldl_bucketAppend w _ _ x hx with hx | hx
          · exact Or.inl hx
          · exact Or.inr ⟨by simp [hx], hx ▸ hl⟩
        · exact Or.inr ⟨List.mem_cons_of_mem w hx.1, hx.2⟩
      · rw [if_pos hl] at hx
        rcases ih _ hx with hx | hx
        · exact Or.inl hx
        · exact Or.inr ⟨List.mem_cons_of_mem w hx.1, hx.2⟩

theorem indexWords_graphInit_length (words : List Word) (size : Nat) :
    ∀ x ∈ indexWords (graphInit words size), x.length = size := by
  intro x hx
  have h := mem_indexWords_graphInit size x words []
    (by simpa [indexWords, graphInit] using hx)
  rcases h with h | h
  · simp at h
  · exact h.2

theorem expandRound_some_facts (endW : Word) (path : Path) :
    ∀ (adjs : List Word) (D : Nat) (v : Visited) (f : List Entry)
      (d2 : Nat) (v2 : Visited) (f2 : List Entry),
      expandRound endW path adjs D v f = some (d2, v2, f2) →
      f2.length = f.length + adjs.length ∧
      v.length ≤ v2.length ∧
      ((v.map Prod.fst).Nodup → (v2.map Prod.fst).Nodup) ∧
      (∀ x ∈ v2.map Prod.fst, x ∈ v.map Prod.fst ∨ x ∈ adjs) ∧
      (∀ ent ∈ f2, ent ∈ f ∨ ent.2.1 ∈ adjs) := by
  intro adjs
  induction adjs with
  | nil =>
      intro D v f d2 v2 f2 h
      rw [expandRound] at h
      simp only [Option.some.injEq, Prod.mk.injEq] at h
      obtain ⟨rfl, rfl, rfl⟩ := h
      exact ⟨by simp, Nat.le_refl _, fun hx => hx, fun x hx => Or.inl hx,
        fun ent he => Or.inl he⟩
  | cons a as ih =>
      intro D v f d2 v2 f2 h
      rw [expandRound] at h
      cases hham : hamming a endW with
      | none => simp [hham] at h
      | some hc =>
          simp only [hham] at h
          obtain ⟨hf, hv, hnd, hkeys, hfr⟩ := ih _ _ _ _ _ _ h
          refine ⟨?_, ?_, ?_, ?_, ?_⟩
          · simp only [List.length_append, List.length_singleton] at hf
            simp only [List.length_cons]
            omega
          · refine Nat.le_trans ?_ hv
            rw [dictSet_length]
            split <;> omega
          · intro hnd0
            exact hnd (dictSet_keys_nodup _ _ _ hnd0)
          · intro x hx
            rcases hkeys x hx with hx2 | hx2
            · rcases keys_dictSet_sub v a _ x hx2 with hx3 | hx3
              · exact Or.inl hx3
              · exact Or.inr (by simp [hx3])
            · exact Or.inr (List.mem_cons_of_mem a hx2)
          · intro ent he
            rcases hfr ent he with he2 | he2
            · rcases List.mem_append.mp he2 with he3 | he3
              · exact Or.inl he3
              · have heq : ent = (D + roundIncr path + hc, a, path ++ [a]) :=
                  List.mem_singleton.mp he3
                subst heq
                exact Or.inr (by simp)
            · exact Or.inr (List.mem_cons_of_mem a he2)

theorem expandRound_cons_grow (endW : Word) (path : Path) (a : Word)
    (as : List Word) (D : Nat) (v : Visited) (f : List Entry)
    (d2 : Nat) (v2 : Visited) (f2 : List Entry)
    (hvm : visitedMem v a = false)
    (h : expandRound endW path (a :: as) D v f = some (d2, v2, f2)) :
    v.length + 1 ≤ v2.length := by
  rw [expandRound] at h
  cases hham : hamming a endW with
  | none => simp [hham] at h
  | some hc =>
      simp only [hham] at h
      have hfacts := expandRound_some_facts endW path as _ _ _ _ _ _ h
      have h1 := hfacts.2.1
      rw [dictSet_length, if_neg (by simp [hvm])] at h1
      omega

theorem minPathAux_isSome (g : Graph) (endW s : Word)
    (hwlen : ∀ x ∈ indexWords g, x.length = g.size) :
    ∀ (n : Nat) (v : Visited) (f : List Entry),
      (v.map Prod.fst).Nodup →
      (∀ x ∈ v.map Prod.fst, x ∈ indexWords g) →
      (∀ ent ∈ f, ent.2.1 = s ∨ ent.2.1 ∈ indexWords g) →
      f.length + (totalBucketLen g - v.length) *
        (max s.length g.size * totalBucketLen g + 1) < n →
      (minPathAux g endW n v f).isSome = true := by
  intro n
  induction n with
  | zero => intro v f _ _ _ hm; exact absurd hm (Nat.not_lt_zero _)
  | succ n ih =>
      intro v f hnd hsub hfr hm
      rw [minPathAux]
      cases hpop : popMin f with
      | none => simp
      | some pr =>
          obtain ⟨⟨D, word, path⟩, rest⟩ := pr
          simp only [hpop]
          by_cases hend : word = endW
          · simp [hend]
          · rw [if_neg hend]
            cases hexp : expandRound endW path (unvisited g word v) D v rest with
            | none => simp
            | some t =>
                obtain ⟨d2, v2, f2⟩ := t
                simp only []
                have hperm := popMin_perm f ((D, word, path), rest) hpop
                have hflen : rest.length + 1 = f.length := by
                  have := hperm.length_eq
                  simpa using this
                have hwordf : ((D, word, path) : Entry) ∈ f :=
                  hperm.mem_iff.mp (List.mem_cons_self _ _)
                have hrest_sub : ∀ ent ∈ rest, ent ∈ f := fun ent he =>
                  hperm.mem_iff.mp (List.mem_cons_of_mem _ he)
                have hword := hfr _ hwordf
                have hwl : word.length ≤ max s.length g.size := by
                  rcases hword with hw | hw
                  · simp only at hw
                    rw [hw]
                    exact Nat.le_max_left _ _
                  · rw [hwlen _ hw]
                    exact Nat.le_max_right _ _
                have hadj : ∀ x ∈ unvisited g word v,
                    x ∈ indexWords g ∧ visitedMem v x = false :=
                  fun x hx => unvisitedAux_facts g v (patterns word) x hx
                have halen : (unvisited g word v).length ≤
                    max s.length g.size * totalBucketLen g :=
                  Nat.le_trans (unvisited_length g word v)
                    (Nat.mul_le_mul_right _ hwl)
                obtain ⟨hf2len, hvmono, hndp, hkeys, hfrp⟩ :=
                  expandRound_some_facts endW path (unvisited g word v)
                    D v rest d2 v2 f2 hexp
                have hnd2 := hndp hnd
                have hsub2 : ∀ x ∈ v2.map Prod.fst, x ∈ indexWords g := by
                  intro x hx
                  rcases hkeys x hx with hx2 | hx2
                  · exact hsub x hx2
                  · exact (hadj x hx2).1
                have hfr2 : ∀ ent ∈ f2, ent.2.1 = s ∨ ent.2.1 ∈ indexWords g := by
                  intro ent he
                  rcases hfrp ent he with he2 | he2
                  · exact hfr ent (hrest_sub ent he2)
                  · exact Or.inr (hadj _ he2).1
                refine ih v2 f2 hnd2 hsub2 hfr2 ?_
                have hv2le : v2.length ≤ totalBucketLen g :=
                  visited_length_le g v2 hnd2 hsub2
                cases hcase : unvisited g word v with
                | nil =>
                    rw [hcase] at hexp
                    rw [expandRound] at hexp
                    simp only [Option.some.injEq, Prod.mk.injEq] at hexp
                    obtain ⟨rfl, rfl, rfl⟩ := hexp
                    omega
                | cons a rest2 =>
                    have ha : a ∈ unvisited g word v := by rw [hcase]; simp
                    have hvm_a : visitedMem v a = false := (hadj a ha).2
                    rw [hcase] at hexp
                    have hplus : v.length + 1 ≤ v2.length :=
                      expandRound_cons_grow endW path a rest2 D v rest
                        d2 v2 f2 hvm_a hexp
                    rw [hcase] at hf2len halen
                    have hmul : (totalBucketLen g - v2.length) *
                        (max s.length g.size * totalBucketLen g + 1) +
                        (max s.length g.size * totalBucketLen g + 1) ≤
                        (totalBucketLen g - v.length) *
                          (max s.length g.size * totalBucketLen g + 1) := by
                      have h1 : (totalBucketLen g - v2.length) + 1 ≤
                          totalBucketLen g - v.length := by omega
                      have h2 := Nat.mul_le_mul_right
                        (max s.length g.size * totalBucketLen g + 1) h1
                      rw [Nat.add_mul, Nat.one_mul] at h2
                      exact h2
                    omega

/-- C7: for every dictionary, word length and start/end pair, `min_path` on
the built graph terminates within the computed fuel: each dictionary word
enters `visited` as a key at most once (keys stay `Nodup`), so the frontier
receives finitely many pushes and the loop ends by returning a path, the
absent value, or a propagated error. -/
theorem spec_C7 (words : List Word) (size : Nat) (s e : Word) :
    (min_path (graphInit words size) s e).isSome = true := by
  rw [min_path]
  refine minPathAux_isSome (graphInit words size) e s
    (indexWords_graphInit_length words size)
    (defaultFuel (graphInit words size) s) [] [(0, s, [s])]
    (by simp) (by simp) ?_ ?_
  · intro ent hent
    have := List.mem_singleton.mp hent
    subst this
    exact Or.inl rfl
  · rw [defaultFuel]
    have hc : (max s.length (graphInit words size).size *
        totalBucketLen (graphInit words size) + 1) *
        totalBucketLen (graphInit words size) =
        totalBucketLen (graphInit words size) *
          (max s.length (graphInit words size).size *
            totalBucketLen (graphInit words size) + 1) := Nat.mul_comm _ _
    simp only [List.length_singleton, List.length_nil, Nat.sub_zero]
    omega

end WordLadder
